import Mathlib

/-!
Verification development for the shenfun tensor-product-space core
(src/shenfun/tensorproductspace.py).  The Python classes are shallowly
embedded: pure index/validation logic is translated function by function,
stateful pipeline executions are modelled by explicit state passing plus an
event trace recording which pipeline Stage / Transfer objects are invoked,
and fallible Python code (assertion failures, IndexError, NameError on an
unbound local) is modelled with Option.
-/

namespace Shenfun

/-! ## Boundary-condition specifications (BoundaryValues.bc slots)

A slot of the `bc` tuple handed to `BoundaryValues` is a plain number, a
numpy array, or a sympy expression (`update_bcs` raises NotImplementedError
for anything else, so the three constructors below are exhaustive for the
reachable states).  Sympy expressions are modelled as unevaluated syntax
trees over the time symbol t and a spatial symbol x; sympy performs no
semantic zero-detection on such trees, and neither does the model. -/

/-- Syntax tree of a sympy expression appearing in a boundary slot: rational
constants, the time symbol t, one spatial symbol x, sums and products. -/
inductive SymExpr
  | const (q : ℚ)
  | tvar
  | xvar
  | add (a b : SymExpr)
  | mul (a b : SymExpr)
deriving DecidableEq, Repr

/-- Value of a boundary expression at time t and spatial coordinate x. -/
def SymExpr.eval (t xv : ℚ) : SymExpr → ℚ
  | .const q => q
  | .tvar => t
  | .xvar => xv
  | .add a b => a.eval t xv + b.eval t xv
  | .mul a b => a.eval t xv * b.eval t xv

/-- Whether the symbol t occurs in the expression (Python:
`tt in bci.free_symbols`). -/
def SymExpr.usesT : SymExpr → Bool
  | .const _ => false
  | .tvar => true
  | .xvar => false
  | .add a b => a.usesT || b.usesT
  | .mul a b => a.usesT || b.usesT

/-- Substitution of a concrete time for the symbol t (Python:
`bci.subs(\x7b't': time\x7d)`). -/
def SymExpr.subst (time : ℚ) : SymExpr → SymExpr
  | .const q => .const q
  | .tvar => .const time
  | .xvar => .xvar
  | .add a b => .add (a.subst time) (b.subst time)
  | .mul a b => .mul (a.subst time) (b.subst time)

/-- An expression that denotes zero for every time and every spatial point. -/
def SymExpr.isIdenticallyZero (e : SymExpr) : Prop :=
  ∀ t xv : ℚ, e.eval t xv = 0

/-- One slot of the `bc` tuple: a scalar Number, a numpy array, or a sympy
expression. -/
inductive BCSpec
  | num (q : ℚ)
  | arr (xs : List ℚ)
  | expr (e : SymExpr)
deriving DecidableEq, Repr

/-- Embeds `BoundaryValues.has_nonhomogeneous_bcs` (tensorproductspace.py
lines 1314-1324): a scalar slot is homogeneous iff it equals 0, an array
slot iff all entries are 0, and any sympy-expression slot makes the whole
specification count as nonhomogeneous, unconditionally. -/
def has_nonhomogeneous_bcs : List BCSpec → Bool
  | [] => false
  | .num q :: rest => if q = 0 then has_nonhomogeneous_bcs rest else true
  | .arr xs :: rest =>
      if xs.all (fun q => q = 0) then has_nonhomogeneous_bcs rest else true
  | .expr _ :: _ => true

/-! ## The forward pipeline as seen by the boundary splicer

`set_tensor_bcs` drives a boundary array through the orchestrator's own
forward pipeline objects (`T.forward._xfftn[i]`, `T.forward._transfer[i]`).
Stages and transfers are modelled as functions on an abstract array type
`α`; every invocation is recorded in an event trace. -/

/-- A pipeline event: execution of stage i (`_xfftn[i]()`) or of transfer i
(`_transfer[i](arrayA, arrayB)`). -/
inductive PipeEvent
  | stage (i : ℕ)
  | xfer (i : ℕ)
deriving DecidableEq, Repr

/-- A snapshot entry stored in `self.bcs` / `self.bcs_final`: the scalar 0
written by the zero-boundary short-circuit, a raw (untransformed) slot value
written by `update_bcs`, or the boundary-dof slice number i of a
pipeline-produced array (`b_hat[this_base.si[-len(bc)+i]].copy()`). -/
inductive SnapVal (α : Type)
  | zero
  | raw (b : BCSpec)
  | slice (a : α) (i : ℕ)
deriving DecidableEq, Repr

/-- The intermediate drive of `set_tensor_bcs` (lines 1208-1233): the
boundary array passes through exactly the branch selected by
`number_of_bases_after_this`.  Depths 0, 1 and 2 are the only branches the
source provides; for any larger depth no branch assigns the local variable
`b_hat`, so its use on line 1238 raises NameError, modelled as `none`. -/
def runIntermediate {α : Type} (stages xfers : List (α → α)) (nbat : ℕ)
    (b : α) : Option (α × List PipeEvent) :=
  match nbat with
  | 0 => some (b, [])
  | 1 =>
    match stages[0]?, xfers[0]? with
    | some s0, some t0 => some (t0 (s0 b), [.stage 0, .xfer 0])
    | _, _ => none
  | 2 =>
    match stages[0]?, xfers[0]?, stages[1]?, xfers[1]? with
    | some s0, some t0, some s1, some t1 =>
        some (t1 (s1 (t0 (s0 b))), [.stage 0, .xfer 0, .stage 1, .xfer 1])
    | _, _, _, _ => none
  | _ + 3 => none

/-- The loop of lines 1242-1247: `for i in range(len(T.forward._transfer)):
run stage i, then transfer i`.  A missing stage index is an IndexError,
modelled as `none`. -/
def runLoop {α : Type} (stages : List (α → α)) :
    List (α → α) → ℕ → α → Option (α × List PipeEvent)
  | [], _, b => some (b, [])
  | t :: ts, i, b =>
    match stages[i]? with
    | none => none
    | some s =>
      (runLoop stages ts (i + 1) (t (s b))).map
        (fun r => (r.1, PipeEvent.stage i :: PipeEvent.xfer i :: r.2))

/-- The full forward drive of lines 1241-1250: the transfer loop followed by
the final stage `T.forward._xfftn[-1]()`. -/
def runFull {α : Type} (stages xfers : List (α → α)) (b : α) :
    Option (α × List PipeEvent) :=
  match runLoop stages xfers 0 b with
  | none => none
  | some r =>
    match stages.getLast? with
    | none => none
    | some slast => some (slast r.1, r.2 ++ [PipeEvent.stage (stages.length - 1)])

/-- Embeds the loop of lines 1149-1158 computing
`number_of_bases_after_this`: walk `T.axes` in reverse (last-transformed
group first) and count the groups encountered before the group whose last
axis belongs to this base. -/
def nbatLoop (ax : ℕ) : List (List ℕ) → Bool × ℕ → Bool × ℕ
  | [], st => st
  | g :: rest, (found, cnt) =>
      if g.getLastD 0 = ax then nbatLoop ax rest (true, cnt)
      else if found = false then nbatLoop ax rest (found, cnt + 1)
      else nbatLoop ax rest (found, cnt)

/-- `number_of_bases_after_this` for the base owning axis `ax`, given the
orchestrator's axis groups in forward order. -/
def number_of_bases_after_this (groups : List (List ℕ)) (ax : ℕ) : ℕ :=
  (nbatLoop ax groups.reverse (false, 0)).2

/-- Result of `BoundaryValues.set_tensor_bcs`: the two snapshot lists
(`self.bcs`, `self.bcs_final`) and the pipeline events executed while
computing first the intermediate and then the final snapshot. -/
structure STB (α : Type) where
  bcs : List (SnapVal α)
  bcs_final : List (SnapVal α)
  traceInter : List PipeEvent
  traceFinal : List PipeEvent
deriving DecidableEq, Repr

/-- Embeds `BoundaryValues.set_tensor_bcs` (lines 1129-1252) for a base
inside a TensorProductSpace whose base-level nonhomogeneous flag is set.
If the current slots are homogeneous, both snapshots are zeroed and the
routine returns without touching the pipeline (lines 1161-1164).  Otherwise
the boundary array `b` is driven through `number_of_bases_after_this`
stages+transfers for the intermediate snapshot and through the entire
forward pipeline for the final snapshot. -/
def set_tensor_bcs {α : Type} (stages xfers : List (α → α)) (nbat : ℕ)
    (bc : List BCSpec) (b : α) : Option (STB α) :=
  if has_nonhomogeneous_bcs bc = false then
    some ⟨List.replicate bc.length .zero, List.replicate bc.length .zero, [], []⟩
  else
    match runIntermediate stages xfers nbat b with
    | none => none
    | some ri =>
      match runFull stages xfers b with
      | none => none
      | some rf =>
        some ⟨(List.range bc.length).map (fun i => SnapVal.slice ri.1 i),
              (List.range bc.length).map (fun i => SnapVal.slice rf.1 i),
              ri.2, rf.2⟩

/-! ## BoundaryValues state updates (`update_bcs`, `update_bcs_time`)

The mutable state of a `BoundaryValues` object.  `hasTPS` records whether
`self.tensorproductspace` has been set (i.e. the object is attached to a
multidimensional orchestrator). -/

/-- Mutable state of a `BoundaryValues` instance. -/
structure BVState (α : Type) where
  bc : List BCSpec
  bcs : List (SnapVal α)
  bcs_final : List (SnapVal α)
  bc_time : ℚ
  hasTPS : Bool
deriving DecidableEq, Repr

/-- A call made by a `BoundaryValues` update: the only one the update
routines can issue is `self.set_tensor_bcs(...)`, which recomputes both
snapshots through the pipeline. -/
inductive BVEvent
  | setTensorBCs
deriving DecidableEq, Repr

/-- Index-wise writes `self.bcs[i] = v` for i below the length of the new
values; writing past the end of the old list is an IndexError (`none`). -/
def writeSlots {α : Type} : List (SnapVal α) → List (SnapVal α) →
    Option (List (SnapVal α))
  | old, [] => some old
  | [], _ :: _ => none
  | _ :: olds, v :: vs => (writeSlots olds vs).map (fun l => v :: l)

/-- Embeds `BoundaryValues.update_bcs` (lines 1102-1113).  With `bc = None`
nothing happens.  Otherwise the length must be 2 or 4 (Python assert), each
slot (necessarily a Number, array or sympy expression here) is written into
`self.bcs[i]` raw, and `self.bcs_final[:] = self.bcs`.  No pipeline
computation and no `set_tensor_bcs` call takes place, hence the empty event
list. -/
def update_bcs {α : Type} (st : BVState α) (bc? : Option (List BCSpec)) :
    Option (BVState α × List BVEvent) :=
  match bc? with
  | none => some (st, [])
  | some bcN =>
    if bcN.length = 2 ∨ bcN.length = 4 then
      match writeSlots st.bcs (bcN.map SnapVal.raw) with
      | none => none
      | some bcs1 => some ({ st with bc := bcN, bcs := bcs1, bcs_final := bcs1 }, [])
    else none

/-- Walks `self.bc` next to `self.bcs`, replacing slot i with the
time-substituted expression whenever slot i is a sympy expression with t
among its free symbols (lines 1118-1123). -/
def writeTimeSlots {α : Type} (time : ℚ) :
    List BCSpec → List (SnapVal α) → Option (List (SnapVal α))
  | [], old => some old
  | _ :: _, [] => none
  | s :: ss, o :: os =>
    let o1 := match s with
      | .expr e => if e.usesT then SnapVal.raw (.expr (e.subst time)) else o
      | _ => o
    (writeTimeSlots time ss os).map (fun l => o1 :: l)

/-- Embeds `BoundaryValues.update_bcs_time` (lines 1115-1127): if some slot
is a sympy expression mentioning t, `bc_time` is set, the affected `bcs`
slots are substituted, `bcs_final[:] = bcs`, and — when the object is
attached to a TensorProductSpace — `set_tensor_bcs` is invoked to recompute
both snapshots through the pipeline. -/
def update_bcs_time {α : Type} (st : BVState α) (time : ℚ) :
    Option (BVState α × List BVEvent) :=
  let upd := st.bc.any (fun s => match s with | .expr e => e.usesT | _ => false)
  if upd then
    match writeTimeSlots time st.bc st.bcs with
    | none => none
    | some bcs1 =>
      some ({ st with bc_time := time, bcs := bcs1, bcs_final := bcs1 },
            if st.hasTPS then [BVEvent.setTensorBCs] else [])
  else some (st, [])

/-! ## Claim C2: zero-boundary short-circuit -/

/-- A slot holding zero data: the scalar 0 or an all-zero array.  This is
exactly what `has_nonhomogeneous_bcs` treats as homogeneous; a sympy
expression is never zero data for the code, whatever it denotes. -/
def BCSpec.isZeroData : BCSpec → Bool
  | .num q => q = 0
  | .arr xs => xs.all (fun q => q = 0)
  | .expr _ => false

theorem has_nonhomogeneous_bcs_eq_false_of_zeroData (bc : List BCSpec)
    (h : bc.all BCSpec.isZeroData = true) : has_nonhomogeneous_bcs bc = false := by
  induction bc with
  | nil => rfl
  | cons s rest ih =>
    rw [List.all_cons, Bool.and_eq_true] at h
    cases s with
    | num q =>
      have hq : q = 0 := by
        have := h.1
        simpa [BCSpec.isZeroData] using this
      simp [has_nonhomogeneous_bcs, hq, ih h.2]
    | arr xs =>
      have hx : xs.all (fun q => q = 0) = true := by
        have := h.1
        simpa [BCSpec.isZeroData] using this
      simp [has_nonhomogeneous_bcs, hx, ih h.2]
    | expr e =>
      exfalso
      have := h.1
      simp [BCSpec.isZeroData] at this

/-- C2 (amended): if every boundary slot holds zero data — a zero scalar or
an all-zero array — then `set_tensor_bcs` sets both the intermediate and the
final snapshot list to all zeros and executes no pipeline Stage or Transfer.
(The claim's third zero form, a symbolic zero expression, is refuted by
`c2_zero_shortcircuit_counterexample`.) -/
theorem c2_zero_shortcircuit {α : Type} (stages xfers : List (α → α))
    (nbat : ℕ) (bc : List BCSpec) (b : α)
    (h : bc.all BCSpec.isZeroData = true) :
    set_tensor_bcs stages xfers nbat bc b =
      some ⟨List.replicate bc.length .zero, List.replicate bc.length .zero,
            [], []⟩ := by
  unfold set_tensor_bcs
  rw [has_nonhomogeneous_bcs_eq_false_of_zeroData bc h]
  simp

/-- Witness for C2 (amended) at a concrete pipeline and the concrete
specification [0, all-zero array]. -/
theorem c2_zero_shortcircuit_witness :
    set_tensor_bcs [fun q : ℚ => q + 1] [] 0
        [BCSpec.num 0, BCSpec.arr [0, 0]] (5 : ℚ) =
      some ⟨[SnapVal.zero, SnapVal.zero], [SnapVal.zero, SnapVal.zero], [], []⟩ :=
  c2_zero_shortcircuit [fun q : ℚ => q + 1] [] 0
    [BCSpec.num 0, BCSpec.arr [0, 0]] (5 : ℚ) (by decide)

/-- The boundary expression 0·x: a sympy expression denoting zero at every
time and every spatial point. -/
def zeroExprC2 : SymExpr := .mul (.const 0) .xvar

/-- A two-slot specification whose slots are both symbolic zeros. -/
def bcC2 : List BCSpec := [.expr zeroExprC2, .expr zeroExprC2]

/-- A concrete two-group pipeline for the counterexample. -/
def stagesC2 : List (ℚ → ℚ) := [fun q => q + 1, fun q => 2 * q]

/-- The single transfer of the concrete two-group pipeline. -/
def xfersC2 : List (ℚ → ℚ) := [fun q => q]

/-- Counterexample to C2 as stated: a specification whose every slot is a
symbolic zero expression (identically zero at all times and points) does
not short-circuit — `has_nonhomogeneous_bcs` reports it as nonhomogeneous,
and `set_tensor_bcs` executes Stage 0 and Transfer 0 of the pipeline while
computing the intermediate snapshot, contradicting the required empty
Stage/Transfer execution. -/
theorem c2_zero_shortcircuit_counterexample :
    SymExpr.isIdenticallyZero zeroExprC2
    ∧ has_nonhomogeneous_bcs bcC2 = true
    ∧ (set_tensor_bcs stagesC2 xfersC2 1 bcC2 (3 : ℚ)).map STB.traceInter =
        some [PipeEvent.stage 0, PipeEvent.xfer 0]
    ∧ [PipeEvent.stage 0, PipeEvent.xfer 0] ≠ ([] : List PipeEvent) := by
  refine ⟨?_, rfl, rfl, by decide⟩
  intro t xv
  simp [zeroExprC2, SymExpr.eval]

/-! ## Claim C3: pipeline depth of the intermediate snapshot -/

theorem nbatLoop_append (ax : ℕ) (l1 l2 : List (List ℕ)) :
    ∀ st, nbatLoop ax (l1 ++ l2) st = nbatLoop ax l2 (nbatLoop ax l1 st) := by
  induction l1 with
  | nil => intro st; rfl
  | cons g rest ih =>
    intro st
    obtain ⟨found, cnt⟩ := st
    simp only [List.cons_append, nbatLoop]
    by_cases h1 : g.getLastD 0 = ax
    · rw [if_pos h1, if_pos h1]
      exact ih _
    · rw [if_neg h1, if_neg h1]
      by_cases h2 : found = false
      · rw [if_pos h2, if_pos h2]
        exact ih _
      · rw [if_neg h2, if_neg h2]
        exact ih _

theorem nbatLoop_found (ax : ℕ) (l : List (List ℕ)) :
    ∀ c, (nbatLoop ax l (true, c)).2 = c := by
  induction l with
  | nil => intro c; rfl
  | cons g rest ih =>
    intro c
    simp only [nbatLoop]
    by_cases h1 : g.getLastD 0 = ax
    · rw [if_pos h1]
      exact ih _
    · rw [if_neg h1]
      exact ih _

theorem nbatLoop_not_found (ax : ℕ) (l : List (List ℕ))
    (h : ∀ g ∈ l, g.getLastD 0 ≠ ax) :
    ∀ c, nbatLoop ax l (false, c) = (false, c + l.length) := by
  induction l with
  | nil => intro c; rfl
  | cons g rest ih =>
    intro c
    have hg : g.getLastD 0 ≠ ax := h g (by simp)
    have ih2 := ih (fun gp hgp => h gp (by simp [hgp]))
    simp only [nbatLoop]
    rw [if_neg hg]
    simp only [if_true]
    rw [ih2 (c + 1)]
    simp only [Prod.mk.injEq, List.length_cons]
    refine ⟨by trivial, by omega⟩

/-- The loop of lines 1149-1158 indeed computes the number of groups
transformed before this base's group, i.e. positioned after it in the
forward pipeline's group order. -/
theorem number_of_bases_after_this_eq (pre post : List (List ℕ))
    (g : List ℕ) (ax : ℕ) (hg : g.getLastD 0 = ax)
    (hpost : ∀ gp ∈ post, gp.getLastD 0 ≠ ax) :
    number_of_bases_after_this (pre ++ g :: post) ax = post.length := by
  unfold number_of_bases_after_this
  have hrev : (pre ++ g :: post).reverse = post.reverse ++ [g] ++ pre.reverse := by
    simp
  rw [hrev, nbatLoop_append, nbatLoop_append]
  rw [nbatLoop_not_found ax post.reverse
        (fun gp hgp => hpost gp (List.mem_reverse.mp hgp)) 0]
  have hstep : nbatLoop ax [g] (false, 0 + post.reverse.length) =
      (true, post.length) := by
    simp only [nbatLoop]
    rw [if_pos hg]
    simp [List.length_reverse]
  rw [hstep, nbatLoop_found]

theorem runLoop_isSome {α : Type} (stages : List (α → α)) :
    ∀ (ts : List (α → α)) (i : ℕ) (b : α), i + ts.length ≤ stages.length →
      ∃ r, runLoop stages ts i b = some r := by
  intro ts
  induction ts with
  | nil => intro i b _; exact ⟨(b, []), rfl⟩
  | cons t ts ih =>
    intro i b hle
    have hi : i < stages.length := by
      simp [List.length_cons] at hle
      omega
    obtain ⟨s, hs⟩ : ∃ s, stages[i]? = some s := by
      cases hx : stages[i]? with
      | none =>
        rw [List.getElem?_eq_none_iff] at hx
        omega
      | some s => exact ⟨s, rfl⟩
    obtain ⟨r, hr⟩ := ih (i + 1) (t (s b)) (by simp [List.length_cons] at hle ⊢; omega)
    exact ⟨(r.1, PipeEvent.stage i :: PipeEvent.xfer i :: r.2),
           by simp [runLoop, hs, hr]⟩

theorem runFull_isSome {α : Type} (stages xfers : List (α → α)) (b : α)
    (hlen : stages.length = xfers.length + 1) :
    ∃ r, runFull stages xfers b = some r := by
  obtain ⟨r, hr⟩ := runLoop_isSome stages xfers 0 b (by omega)
  obtain ⟨s, hs⟩ : ∃ s, stages.getLast? = some s := by
    cases hx : stages.getLast? with
    | none =>
      rw [List.getLast?_eq_none_iff] at hx
      rw [hx] at hlen
      simp at hlen
    | some s => exact ⟨s, rfl⟩
  exact ⟨(s r.1, r.2 ++ [PipeEvent.stage (stages.length - 1)]),
         by simp [runFull, hr, hs]⟩

/-- C3 (amended): for a boundary-bearing axis whose group is followed by
`post.length ∈ \x7b0, 1, 2\x7d` groups in the forward pipeline, the splicer
computes `depth = number_of_bases_after_this = post.length` and drives the
boundary array through exactly `depth` Stage/Transfer pairs — the first
`depth` of the real forward pipeline — to obtain the intermediate snapshot.
(Depths of three or more, possible in a four-dimensional orchestrator, are
not handled by the source: see `c3_depth_counterexample`.) -/
theorem c3_depth {α : Type} (stages xfers : List (α → α))
    (pre post : List (List ℕ)) (g : List ℕ) (ax : ℕ) (bc : List BCSpec)
    (b : α)
    (hg : g.getLastD 0 = ax)
    (hpost : ∀ gp ∈ post, gp.getLastD 0 ≠ ax)
    (hnb : has_nonhomogeneous_bcs bc = true)
    (hlen : stages.length = xfers.length + 1)
    (hd : post.length ≤ 2)
    (hdx : post.length ≤ xfers.length) :
    number_of_bases_after_this (pre ++ g :: post) ax = post.length
    ∧ (set_tensor_bcs stages xfers post.length bc b).map STB.traceInter =
        some ((List.range post.length).flatMap
          (fun i => [PipeEvent.stage i, PipeEvent.xfer i])) := by
  refine ⟨number_of_bases_after_this_eq pre post g ax hg hpost, ?_⟩
  obtain ⟨rf, hrf⟩ := runFull_isSome stages xfers b hlen
  have hs0 : 1 ≤ post.length → ∃ s0, stages[0]? = some s0 := by
    intro h1
    cases hx : stages[0]? with
    | none =>
      rw [List.getElem?_eq_none_iff] at hx
      omega
    | some s => exact ⟨s, rfl⟩
  have ht0 : 1 ≤ post.length → ∃ t0, xfers[0]? = some t0 := by
    intro h1
    cases hx : xfers[0]? with
    | none =>
      rw [List.getElem?_eq_none_iff] at hx
      omega
    | some t => exact ⟨t, rfl⟩
  have hs1 : 2 ≤ post.length → ∃ s1, stages[1]? = some s1 := by
    intro h2
    cases hx : stages[1]? with
    | none =>
      rw [List.getElem?_eq_none_iff] at hx
      omega
    | some s => exact ⟨s, rfl⟩
  have ht1 : 2 ≤ post.length → ∃ t1, xfers[1]? = some t1 := by
    intro h2
    cases hx : xfers[1]? with
    | none =>
      rw [List.getElem?_eq_none_iff] at hx
      omega
    | some t => exact ⟨t, rfl⟩
  have h012 : post.length = 0 ∨ post.length = 1 ∨ post.length = 2 := by omega
  rcases h012 with h0 | h1 | h2
  · rw [h0]
    simp [set_tensor_bcs, hnb, runIntermediate, hrf]
  · obtain ⟨s0, hs0e⟩ := hs0 (by omega)
    obtain ⟨t0, ht0e⟩ := ht0 (by omega)
    rw [h1]
    simp [set_tensor_bcs, hnb, runIntermediate, hs0e, ht0e, hrf]
    decide
  · obtain ⟨s0, hs0e⟩ := hs0 (by omega)
    obtain ⟨t0, ht0e⟩ := ht0 (by omega)
    obtain ⟨s1, hs1e⟩ := hs1 (by omega)
    obtain ⟨t1, ht1e⟩ := ht1 (by omega)
    rw [h2]
    simp [set_tensor_bcs, hnb, runIntermediate, hs0e, ht0e, hs1e, ht1e, hrf]
    decide

/-- Witness for C3 (amended): a two-group pipeline with the boundary
axis in the first group (depth 1). -/
theorem c3_depth_witness :
    number_of_bases_after_this [[1], [0]] 1 = 1
    ∧ (set_tensor_bcs [fun q : ℚ => q + 1, fun q : ℚ => 2 * q]
          [fun q : ℚ => q] 1 [BCSpec.num 1, BCSpec.num 0] (2 : ℚ)).map
        STB.traceInter = some [PipeEvent.stage 0, PipeEvent.xfer 0] :=
  c3_depth [fun q : ℚ => q + 1, fun q : ℚ => 2 * q] [fun q : ℚ => q]
    [] [[0]] [1] 1 [BCSpec.num 1, BCSpec.num 0] (2 : ℚ)
    rfl (by decide) rfl rfl (by decide) (by decide)

/-- A concrete four-group pipeline (as in a 4-D orchestrator). -/
def stagesC3 : List (ℚ → ℚ) :=
  [fun q => q + 1, fun q => q + 2, fun q => q + 3, fun q => q + 4]

/-- The three transfers of the four-group pipeline. -/
def xfersC3 : List (ℚ → ℚ) := [fun q => q, fun q => q, fun q => q]

/-- Counterexample to C3 as stated: in a four-group orchestrator with the
boundary-bearing axis in the first group, the depth is 3 — a possible value
— yet `set_tensor_bcs` provides no branch for it: the local `b_hat` is
never assigned and its use raises NameError (modelled by `none`), instead
of driving the array through exactly 3 stages and transfers. -/
theorem c3_depth_counterexample :
    number_of_bases_after_this [[0], [1], [2], [3]] 0 = 3
    ∧ has_nonhomogeneous_bcs [BCSpec.num 1, BCSpec.num 0] = true
    ∧ set_tensor_bcs stagesC3 xfersC3 3 [BCSpec.num 1, BCSpec.num 0]
        (2 : ℚ) = none :=
  ⟨rfl, rfl, rfl⟩

/-! ## Claim C4: snapshot recomputation on specification changes -/

theorem writeSlots_eq {α : Type} :
    ∀ (vs old : List (SnapVal α)), vs.length ≤ old.length →
      writeSlots old vs = some (vs ++ old.drop vs.length) := by
  intro vs
  induction vs with
  | nil => intro old _; simp [writeSlots]
  | cons v vs ih =>
    intro old hle
    cases old with
    | nil => simp at hle
    | cons o os =>
      simp only [writeSlots, List.length_cons]
      rw [ih os (by simp at hle; omega)]
      simp

theorem writeTimeSlots_isSome {α : Type} (time : ℚ) :
    ∀ (ss : List BCSpec) (old : List (SnapVal α)), ss.length ≤ old.length →
      ∃ r, writeTimeSlots time ss old = some r := by
  intro ss
  induction ss with
  | nil => intro old _; exact ⟨old, rfl⟩
  | cons s ss ih =>
    intro old hle
    cases old with
    | nil => simp at hle
    | cons o os =>
      obtain ⟨r, hr⟩ := ih os (by simp at hle; omega)
      cases s with
      | num q => exact ⟨o :: r, by simp [writeTimeSlots, hr]⟩
      | arr xs => exact ⟨o :: r, by simp [writeTimeSlots, hr]⟩
      | expr e =>
        by_cases he : e.usesT
        · exact ⟨SnapVal.raw (.expr (e.subst time)) :: r,
                 by simp [writeTimeSlots, hr, he]⟩
        · exact ⟨o :: r, by simp [writeTimeSlots, hr, he]⟩

/-- C4 (amended): setting new boundary values through `update_bcs`
overwrites both snapshot lists with the raw (untransformed) slot values and
issues no `set_tensor_bcs` call — the pipeline recomputation must be
triggered separately by the caller; advancing the bound time parameter
through `update_bcs_time`, when some slot depends on t and the object is
attached to a TensorProductSpace, updates both snapshot lists and does
invoke `set_tensor_bcs` to recompute them. -/
theorem c4_update_recompute {α : Type} (st : BVState α) (bcN : List BCSpec)
    (time : ℚ)
    (hlenN : bcN.length = 2 ∨ bcN.length = 4)
    (hle : bcN.length ≤ st.bcs.length)
    (hbt : st.bc.length ≤ st.bcs.length)
    (ht : st.bc.any
      (fun s => match s with | .expr e => e.usesT | _ => false) = true)
    (htps : st.hasTPS = true) :
    update_bcs st (some bcN) =
      some ({ st with bc := bcN,
                      bcs := bcN.map SnapVal.raw ++ st.bcs.drop bcN.length,
                      bcs_final := bcN.map SnapVal.raw ++ st.bcs.drop bcN.length },
            [])
    ∧ (update_bcs_time st time).map (fun p => p.2) = some [BVEvent.setTensorBCs]
    ∧ (update_bcs_time st time).map (fun p => p.1.bcs_final) =
        (update_bcs_time st time).map (fun p => p.1.bcs) := by
  obtain ⟨r, hr⟩ := writeTimeSlots_isSome time st.bc st.bcs hbt
  refine ⟨?_, ?_, ?_⟩
  · simp only [update_bcs]
    rw [if_pos hlenN, writeSlots_eq (bcN.map SnapVal.raw) st.bcs (by simpa using hle)]
    simp
  · unfold update_bcs_time
    rw [if_pos ht, hr]
    simp [htps]
  · unfold update_bcs_time
    rw [if_pos ht, hr]
    simp

/-- A concrete boundary state attached to a TensorProductSpace, with a
time-dependent slot. -/
def stC4w : BVState ℚ :=
  ⟨[.expr .tvar, .num 0], [.raw (.num 0), .raw (.num 0)],
   [.raw (.num 0), .raw (.num 0)], 0, true⟩

/-- Witness for C4 (amended) at the concrete state `stC4w`, new values
[1, 2] and time 7. -/
theorem c4_update_recompute_witness :
    update_bcs stC4w (some [BCSpec.num 1, BCSpec.num 2]) =
      some ({ stC4w with
                bc := [BCSpec.num 1, BCSpec.num 2],
                bcs := [SnapVal.raw (BCSpec.num 1), SnapVal.raw (BCSpec.num 2)],
                bcs_final := [SnapVal.raw (BCSpec.num 1), SnapVal.raw (BCSpec.num 2)] },
            [])
    ∧ (update_bcs_time stC4w 7).map (fun p => p.2) = some [BVEvent.setTensorBCs]
    ∧ (update_bcs_time stC4w 7).map (fun p => p.1.bcs_final) =
        (update_bcs_time stC4w 7).map (fun p => p.1.bcs) :=
  c4_update_recompute stC4w [BCSpec.num 1, BCSpec.num 2] 7
    (by decide) (by decide) (by decide) (by decide) rfl

/-- A boundary state attached to a TensorProductSpace with homogeneous
slots, before new values are set. -/
def stC4 : BVState ℚ :=
  ⟨[.num 0, .num 0], [.raw (.num 0), .raw (.num 0)],
   [.raw (.num 0), .raw (.num 0)], 0, true⟩

/-- The state produced by `update_bcs` with the new values [1, 2]. -/
def stC4after : BVState ℚ :=
  ⟨[.num 1, .num 2], [.raw (.num 1), .raw (.num 2)],
   [.raw (.num 1), .raw (.num 2)], 0, true⟩

/-- Counterexample to C4 as stated: setting new boundary values [1, 2] on a
tensor-attached state changes the specification but issues no
`set_tensor_bcs` call (empty event list), and the stored snapshots are the
raw values — not what a pipeline recomputation (`set_tensor_bcs` on the new
specification, here over a concrete two-group pipeline) produces.  So the
snapshots are not recomputed when new boundary values are set. -/
theorem c4_update_recompute_counterexample :
    stC4.hasTPS = true
    ∧ update_bcs stC4 (some [BCSpec.num 1, BCSpec.num 2]) = some (stC4after, [])
    ∧ stC4after.bc ≠ stC4.bc
    ∧ BVEvent.setTensorBCs ∉ ([] : List BVEvent)
    ∧ (set_tensor_bcs [fun q : ℚ => q + 1, fun q : ℚ => 2 * q] [fun q : ℚ => q]
          1 [BCSpec.num 1, BCSpec.num 2] (0 : ℚ)).map STB.bcs ≠
        some stC4after.bcs := by
  refine ⟨rfl, by decide, by decide, by decide, by decide⟩

/-! ## Claim C5: dtype transition invariant along the forward pipeline -/

/-- Element dtype of pipeline data (`np.dtype(...).char` in 'fdg' versus
'FDG'). -/
inductive Dtype
  | real
  | complex
deriving DecidableEq, Repr

/-- Transform family of a 1D basis, as the pipeline builder distinguishes
them: `R2CBasis`, `C2CBasis` (both of family fourier) and the
Chebyshev/Legendre families. -/
inductive Family
  | fourierR2C
  | fourierC2C
  | cheb
  | legendre
deriving DecidableEq, Repr

/-- Modelled from the spec: the dtype rule of the external per-axis
transform contract (spec section 6) — R2CBasis is real-input/complex-output,
C2CBasis is complex/complex, and the Chebyshev/Legendre transforms preserve
the element dtype.  The basis implementations live outside src/; the
pipeline builder (lines 153-179) reads the planned transform's input/output
dtypes and propagates a changed dtype to the next Pencil.  Feeding a basis
the wrong dtype is a contract violation, modelled as `none`. -/
def transform_dtype : Family → Dtype → Option Dtype
  | .fourierR2C, .real => some .complex
  | .fourierR2C, .complex => none
  | .fourierC2C, .complex => some .complex
  | .fourierC2C, .real => none
  | .cheb, d => some d
  | .legendre, d => some d

/-- The dtype sequence along the forward pipeline: entry 0 is the input
dtype, entry i+1 the dtype after stage i, as propagated by lines 153-179. -/
def pipelineDtypes : List Family → Dtype → Option (List Dtype)
  | [], d => some [d]
  | b :: bs, d =>
    match transform_dtype b d with
    | none => none
    | some d1 => (pipelineDtypes bs d1).map (fun ds => d :: ds)

/-- Number of real-to-complex switches along a dtype sequence. -/
def rcTransitions : List Dtype → ℕ
  | .real :: .complex :: rest => 1 + rcTransitions (.complex :: rest)
  | _ :: rest => rcTransitions rest
  | [] => 0

theorem rcTransitions_cons_cons (a b : Dtype) (l : List Dtype) :
    rcTransitions (a :: b :: l) =
      (if a = .real ∧ b = .complex then 1 else 0) + rcTransitions (b :: l) := by
  cases a <;> cases b <;> simp [rcTransitions]

theorem pipelineDtypes_cons (f : Family) (bs : List Family) (d : Dtype)
    (ds : List Dtype) (h : pipelineDtypes (f :: bs) d = some ds) :
    ∃ d1 tl, transform_dtype f d = some d1
      ∧ pipelineDtypes bs d1 = some tl ∧ ds = d :: tl := by
  cases ht : transform_dtype f d with
  | none => simp [pipelineDtypes, ht] at h
  | some d1 =>
    cases hp : pipelineDtypes bs d1 with
    | none => simp [pipelineDtypes, ht, hp] at h
    | some tl =>
      refine ⟨d1, tl, rfl, hp, ?_⟩
      simp [pipelineDtypes, ht, hp] at h
      exact h.symm

theorem pipelineDtypes_complex_all (bs : List Family) :
    ∀ ds, pipelineDtypes bs .complex = some ds → ∀ d ∈ ds, d = .complex := by
  induction bs with
  | nil =>
    intro ds h d hd
    simp [pipelineDtypes] at h
    rw [← h] at hd
    simpa using hd
  | cons f bs ih =>
    intro ds h d hd
    obtain ⟨d1, tl, ht, hp, hds⟩ := pipelineDtypes_cons f bs .complex ds h
    have hd1 : d1 = .complex := by
      cases f <;> simp [transform_dtype] at ht <;> exact ht.symm
    rw [hds] at hd
    rcases List.mem_cons.mp hd with h1 | h2
    · exact h1
    · exact ih tl (hd1 ▸ hp) d h2

theorem pipelineDtypes_shape (bs : List Family) (d : Dtype) (ds : List Dtype)
    (h : pipelineDtypes bs d = some ds) : ∃ t, ds = d :: t := by
  cases bs with
  | nil =>
    simp [pipelineDtypes] at h
    exact ⟨[], h.symm⟩
  | cons f bs =>
    obtain ⟨d1, tl, _, _, hds⟩ := pipelineDtypes_cons f bs d ds h
    exact ⟨tl, hds⟩

theorem rcTransitions_all_complex :
    ∀ l : List Dtype, (∀ d ∈ l, d = .complex) → rcTransitions l = 0 := by
  intro l
  induction l with
  | nil => intro _; rfl
  | cons a l ih =>
    intro h
    have ha : a = Dtype.complex := h a (by simp)
    subst ha
    rw [show rcTransitions (Dtype.complex :: l) = rcTransitions l from rfl]
    exact ih (fun d hd => h d (by simp [hd]))

theorem pipelineDtypes_rcTransitions :
    ∀ (bs : List Family) (d0 : Dtype) (ds : List Dtype),
      pipelineDtypes bs d0 = some ds → rcTransitions ds ≤ 1 := by
  intro bs
  induction bs with
  | nil =>
    intro d0 ds h
    simp [pipelineDtypes] at h
    rw [← h]
    cases d0 <;> simp [rcTransitions]
  | cons f bs ih =>
    intro d0 ds h
    obtain ⟨d1, tl, ht, hp, hds⟩ := pipelineDtypes_cons f bs d0 ds h
    obtain ⟨t1, ht1⟩ := pipelineDtypes_shape bs d1 tl hp
    subst hds
    subst ht1
    rw [rcTransitions_cons_cons]
    by_cases hc : d0 = .real ∧ d1 = .complex
    · obtain ⟨hd0, hd1⟩ := hc
      subst hd1
      rw [if_pos ⟨hd0, rfl⟩]
      rw [rcTransitions_all_complex (Dtype.complex :: t1)
            (pipelineDtypes_complex_all bs (Dtype.complex :: t1) hp)]
    · rw [if_neg hc]
      have := ih d1 (d1 :: t1) hp
      omega

theorem pipelineDtypes_transition_r2c :
    ∀ (bs : List Family) (d0 : Dtype) (ds : List Dtype) (i : ℕ),
      pipelineDtypes bs d0 = some ds →
      ds[i]? = some .real → ds[i + 1]? = some .complex →
      bs[i]? = some .fourierR2C := by
  intro bs
  induction bs with
  | nil =>
    intro d0 ds i h h1 h2
    simp [pipelineDtypes] at h
    rw [← h] at h2
    rw [List.getElem?_eq_none_iff.mpr (by simp)] at h2
    exact absurd h2 (by simp)
  | cons f bs ih =>
    intro d0 ds i h h1 h2
    obtain ⟨d1, tl, ht, hp, hds⟩ := pipelineDtypes_cons f bs d0 ds h
    obtain ⟨t1, ht1⟩ := pipelineDtypes_shape bs d1 tl hp
    subst hds
    cases i with
    | zero =>
      have hd0 : d0 = Dtype.real := by simpa using h1
      have hd1 : d1 = Dtype.complex := by
        rw [ht1] at h2
        simpa using h2
      subst hd0
      subst hd1
      cases f with
      | fourierR2C => simp
      | fourierC2C => simp [transform_dtype] at ht
      | cheb => simp [transform_dtype] at ht
      | legendre => simp [transform_dtype] at ht
    | succ k =>
      have h1t : tl[k]? = some Dtype.real := by simpa using h1
      have h2t : tl[k + 1]? = some Dtype.complex := by simpa using h2
      simpa using ih d1 tl k hp h1t h2t

theorem all_complex_getElem (ds : List Dtype)
    (hall : ∀ d ∈ ds, d = Dtype.complex) (j : ℕ) (hj : j < ds.length) :
    ds[j]? = some Dtype.complex := by
  rw [List.getElem?_eq_getElem hj]
  rw [hall _ (List.getElem_mem hj)]

theorem pipelineDtypes_complex_persists :
    ∀ (bs : List Family) (d0 : Dtype) (ds : List Dtype) (i j : ℕ),
      pipelineDtypes bs d0 = some ds →
      i ≤ j → j < ds.length → ds[i]? = some .complex →
      ds[j]? = some .complex := by
  intro bs
  induction bs with
  | nil =>
    intro d0 ds i j h hij hj hi
    simp [pipelineDtypes] at h
    rw [← h] at hi hj ⊢
    simp at hj
    have hj0 : j = 0 := by omega
    have hi0 : i = 0 := by omega
    rw [hj0]
    rw [hi0] at hi
    exact hi
  | cons f bs ih =>
    intro d0 ds i j h hij hj hi
    obtain ⟨d1, tl, ht, hp, hds⟩ := pipelineDtypes_cons f bs d0 ds h
    subst hds
    cases i with
    | zero =>
      have hd0 : d0 = Dtype.complex := by simpa using hi
      subst hd0
      have hd1 : d1 = Dtype.complex := by
        cases f <;> simp [transform_dtype] at ht <;> exact ht.symm
      subst hd1
      have hall : ∀ d ∈ Dtype.complex :: tl, d = Dtype.complex := by
        intro d hd
        rcases List.mem_cons.mp hd with h1 | h2
        · exact h1
        · exact pipelineDtypes_complex_all bs tl hp d h2
      exact all_complex_getElem _ hall j hj
    | succ k =>
      cases j with
      | zero => omega
      | succ m =>
        have hit : tl[k]? = some Dtype.complex := by simpa using hi
        have hjt : m < tl.length := by simpa using hj
        have := ih d1 tl k m hp (by omega) hjt hit
        simpa using this

/-- C5: along every constructed forward pipeline the element dtype switches
from real to complex at most once; a switch can happen only at a stage
whose basis is the real-to-complex `R2CBasis`; and once the data is
complex, every later point of the pipeline is complex. -/
theorem c5_dtype_invariant (bs : List Family) (d0 : Dtype) (ds : List Dtype)
    (i j : ℕ) (h : pipelineDtypes bs d0 = some ds) :
    rcTransitions ds ≤ 1
    ∧ (ds[i]? = some .real → ds[i + 1]? = some .complex →
        bs[i]? = some .fourierR2C)
    ∧ (i ≤ j → j < ds.length → ds[i]? = some .complex →
        ds[j]? = some .complex) :=
  ⟨pipelineDtypes_rcTransitions bs d0 ds h,
   fun h1 h2 => pipelineDtypes_transition_r2c bs d0 ds i h h1 h2,
   fun hij hj hi => pipelineDtypes_complex_persists bs d0 ds i j h hij hj hi⟩

/-- Witness for C5: the pipeline Chebyshev, then R2C Fourier, then C2C
Fourier, starting from real data; its dtype sequence is
[real, real, complex, complex], switching exactly at the R2C stage. -/
theorem c5_dtype_invariant_witness :
    pipelineDtypes [.cheb, .fourierR2C, .fourierC2C] .real =
      some [.real, .real, .complex, .complex]
    ∧ (rcTransitions [.real, .real, .complex, .complex] ≤ 1
      ∧ ([Dtype.real, .real, .complex, .complex][1]? = some .real →
          [Dtype.real, .real, .complex, .complex][2]? = some .complex →
          [Family.cheb, .fourierR2C, .fourierC2C][1]? = some .fourierR2C)
      ∧ (1 ≤ 3 → 3 < [Dtype.real, .real, .complex, .complex].length →
          [Dtype.real, .real, .complex, .complex][1]? = some .complex →
          [Dtype.real, .real, .complex, .complex][3]? = some .complex)) :=
  ⟨rfl, c5_dtype_invariant [.cheb, .fourierR2C, .fourierC2C] .real
          [.real, .real, .complex, .complex] 1 3 rfl⟩

/-! ## Claim C6: validation of the axes argument -/

/-- Embeds the per-group validation of `TensorProductSpace.__init__`
(lines 77-94) for one group: negative axes get the dimension added, and the
asserts require every entry in range, a nonempty group no larger than the
dimension, and `sorted(axes[i]) == sorted(set(axes[i]))` — no duplicate
inside the group.  A failed assert aborts construction (`none`).  A bare
integer in the axes argument is wrapped into a singleton group by the same
code, so groups are the general case. -/
def normalizeGroup (ndim : ℕ) (g : List ℤ) : Option (List ℕ) :=
  let g1 := g.map (fun a => if a < 0 then a + (ndim : ℤ) else a)
  if (g1.all fun a => decide (0 ≤ a)) = true
      ∧ (g1.all fun a => decide (a < (ndim : ℤ))) = true
      ∧ 0 < g1.length ∧ g1.length ≤ ndim
      ∧ g1.insertionSort (· ≤ ·) = g1.dedup.insertionSort (· ≤ ·)
  then some (g1.map Int.toNat) else none

/-- The whole axes validation: every group must pass `normalizeGroup`; no
cross-group condition is ever checked. -/
def normalize_axes (ndim : ℕ) (axes : List (List ℤ)) :
    Option (List (List ℕ)) :=
  match axes with
  | [] => some []
  | g :: rest =>
    match normalizeGroup ndim g, normalize_axes ndim rest with
    | some g1, some rest1 => some (g1 :: rest1)
    | _, _ => none

/-- C6 (amended): construction validates each axis group independently —
entries in range after negative-axis adjustment, group nonempty and no
larger than the dimension, no duplicate within a group — and fails exactly
when some group violates these; it checks nothing across groups, so an
axes argument that repeats an axis in different groups or omits an axis
passes validation (see the counterexample). -/
theorem c6_axes_validation (ndim : ℕ) (axes : List (List ℤ)) :
    (normalize_axes ndim axes).isSome ↔
      ∀ g ∈ axes, (normalizeGroup ndim g).isSome := by
  induction axes with
  | nil => simp [normalize_axes]
  | cons g rest ih =>
    cases hg : normalizeGroup ndim g with
    | none =>
      simp only [normalize_axes, hg]
      constructor
      · intro h
        simp at h
      · intro h
        have := h g (by simp)
        rw [hg] at this
        simp at this
    | some g1 =>
      cases hr : normalize_axes ndim rest with
      | none =>
        simp only [normalize_axes, hg, hr]
        constructor
        · intro h
          simp at h
        · intro h
          have hrest : ∀ gp ∈ rest, (normalizeGroup ndim gp).isSome :=
            fun gp hgp => h gp (by simp [hgp])
          rw [← ih] at hrest
          rw [hr] at hrest
          simp at hrest
      | some rest1 =>
        simp only [normalize_axes, hg, hr]
        constructor
        · intro _ gp hgp
          rcases List.mem_cons.mp hgp with h1 | h2
          · rw [h1, hg]
            simp
          · have hrest : (normalize_axes ndim rest).isSome := by
              rw [hr]
              simp
            exact (ih.mp hrest) gp h2
        · intro _
          simp

/-- Counterexample to C6 as stated: the axes list [[1]] for a 2-D space
omits axis 0, and [[0], [0]] repeats axis 0 across groups and omits axis 1
— neither flattens to a permutation of the available axes — yet both pass
the constructor's validation, which accepts them instead of failing. -/
theorem c6_axes_validation_counterexample :
    normalize_axes 2 [[1]] = some [[1]]
    ∧ ¬ List.Perm ([[(1 : ℕ)]].flatten) (List.range 2)
    ∧ normalize_axes 2 [[0], [0]] = some [[0], [0]]
    ∧ ¬ List.Perm ([[(0 : ℕ)], [0]].flatten) (List.range 2) := by
  refine ⟨by decide, by decide, by decide, by decide⟩

/-! ## Claim C7: size is the product of the per-axis global extents -/

/-- Static per-axis data of a 1D basis, as consumed by the orchestrator:
global physical extent (`shape(False)`), global spectral extent
(`shape(True)`), degrees of freedom (`dim()`), and the transform family. -/
structure SpectralBasis where
  shape_phys : ℕ
  shape_spec : ℕ
  dofs : ℕ
  family : Family
deriving DecidableEq, Repr

/-- `base.shape(forward_output)` of the external 1D basis contract. -/
def SpectralBasis.shape (b : SpectralBasis) (forward_output : Bool) : ℕ :=
  if forward_output then b.shape_spec else b.shape_phys

/-- A TensorProductSpace, reduced to the per-axis data the size/dimension
queries read. -/
structure TensorProductSpace where
  bases : List SpectralBasis
deriving DecidableEq, Repr

/-- Embeds `TensorProductSpace.global_shape` (lines 611-624): the tuple of
per-basis global extents, physical or spectral according to the flag. -/
def TensorProductSpace.global_shape (T : TensorProductSpace)
    (forward_output : Bool) : List ℕ :=
  T.bases.map (fun b => b.shape forward_output)

/-- Modelled from the spec: `TensorProductSpace.shape` is inherited from
the external mpi4py_fft `PFFT` base class, which is not under src/.  Per
the spec (GlobalShape, section 3) and the module's own test
(`some_basic_tests`, line 1341, which allocates the global array as
`np.random.random(T.shape())`), it returns the global per-axis extents of
the physical or spectral array. -/
def TensorProductSpace.shape (T : TensorProductSpace)
    (forward_output : Bool) : List ℕ :=
  T.global_shape forward_output

/-- Embeds `TensorProductSpace.size` (lines 607-609):
`np.prod(self.shape(forward_output))`. -/
def TensorProductSpace.size (T : TensorProductSpace)
    (forward_output : Bool) : ℕ :=
  (T.shape forward_output).prod

/-- Embeds `TensorProductSpace.dims` (lines 603-605): per-basis degrees of
freedom. -/
def TensorProductSpace.dims (T : TensorProductSpace) : List ℕ :=
  T.bases.map SpectralBasis.dofs

/-- Embeds `TensorProductSpace.dim` (lines 599-601): product of `dims`. -/
def TensorProductSpace.dim (T : TensorProductSpace) : ℕ :=
  T.dims.prod

/-- C7: for every orchestrator and both values of the flag, `size` is the
product of the per-axis global extents of the selected (physical or
spectral) global shape. -/
theorem c7_size_prod (T : TensorProductSpace) (forward_output : Bool) :
    T.size forward_output =
      (T.bases.map (fun b => b.shape forward_output)).prod := rfl

/-! ## Claim C8: composite dimension accounting -/

/-- A composite space: a `MixedTensorProductSpace` holds an ordered list of
member spaces, each of which is either a TensorProductSpace leaf or itself
composite (the Python test is `hasattr(l, 'spaces')`). -/
inductive MixedSpace
  | leaf (T : TensorProductSpace)
  | mixed (spaces : List MixedSpace)

mutual

/-- Embeds `_recursiveflatten` of `MixedTensorProductSpace.flatten`
(lines 905-914): spaces are appended to the accumulator, members of a
composite are visited left to right. -/
def flattenAux : MixedSpace → List TensorProductSpace → List TensorProductSpace
  | .leaf T, s => s ++ [T]
  | .mixed sp, s => flattenAuxList sp s

/-- The `for i in l.spaces` loop of `_recursiveflatten`. -/
def flattenAuxList : List MixedSpace → List TensorProductSpace →
    List TensorProductSpace
  | [], s => s
  | m :: ms, s => flattenAuxList ms (flattenAux m s)

end

/-- `MixedTensorProductSpace.flatten`: run `_recursiveflatten` on an empty
accumulator. -/
def MixedSpace.flatten (m : MixedSpace) : List TensorProductSpace :=
  flattenAux m []

/-- Embeds `MixedTensorProductSpace.dim` (lines 826-831): the sum of
`space.dim()` over the flattened spaces. -/
def MixedSpace.dim (m : MixedSpace) : ℕ :=
  ((MixedSpace.flatten m).map TensorProductSpace.dim).sum

mutual

/-- The depth-first left-to-right leaf list, written directly from the
spec's words, to be compared with the source's accumulator-style
`flatten`. -/
def specFlatten : MixedSpace → List TensorProductSpace
  | .leaf T => [T]
  | .mixed sp => specFlattenList sp

/-- Depth-first left-to-right flattening of a member list. -/
def specFlattenList : List MixedSpace → List TensorProductSpace
  | [] => []
  | m :: ms => specFlatten m ++ specFlattenList ms

end

mutual

theorem flattenAux_eq : ∀ (m : MixedSpace) (s : List TensorProductSpace),
    flattenAux m s = s ++ specFlatten m
  | .leaf T, s => by
      simp [flattenAux, specFlatten]
  | .mixed sp, s => by
      rw [show flattenAux (.mixed sp) s = flattenAuxList sp s from rfl,
          flattenAuxList_eq sp s]
      rfl

theorem flattenAuxList_eq : ∀ (ms : List MixedSpace)
    (s : List TensorProductSpace), flattenAuxList ms s = s ++ specFlattenList ms
  | [], s => by
      simp [flattenAuxList, specFlattenList]
  | m :: ms, s => by
      rw [show flattenAuxList (m :: ms) s = flattenAuxList ms (flattenAux m s)
            from rfl,
          flattenAuxList_eq ms (flattenAux m s), flattenAux_eq m s]
      simp [specFlattenList]

end

/-- C8: for every composite space, arbitrarily nested, the flattened list
is exactly the depth-first left-to-right leaf list, and `dim()` equals the
sum of `dim()` over that list. -/
theorem c8_composite_dim (m : MixedSpace) :
    MixedSpace.flatten m = specFlatten m
    ∧ MixedSpace.dim m = ((specFlatten m).map TensorProductSpace.dim).sum := by
  have h : MixedSpace.flatten m = specFlatten m := by
    rw [MixedSpace.flatten, flattenAux_eq m []]
    rfl
  exact ⟨h, by rw [MixedSpace.dim, h]⟩

/-! ## Claim C9: merging consecutive Fourier groups -/

/-- Whether a basis belongs to the fourier family (`base.family() ==
'fourier'` is true for both `C2CBasis` and `R2CBasis`). -/
def isFourier : Family → Bool
  | .fourierR2C => true
  | .fourierC2C => true
  | .cheb => false
  | .legendre => false

/-- Embeds the collapsibility predicate of line 139: axis `ax` may join a
merged group iff its basis is of the fourier family and the process-grid
extent along `ax` is 1. -/
def collapse_pred (families : List Family) (gridsize : List ℕ) (ax : ℕ) : Bool :=
  isFourier (families.getD ax .cheb) && (gridsize.getD ax 0 == 1)

/-- Embeds the loop of lines 143-149: walk the earlier groups from
second-last to first; a group whose (last) axis and the previously
processed axis both satisfy F is merged into the front group, otherwise it
is prepended as its own group. -/
def collapseLoop (F : ℕ → Bool) :
    List (List ℕ) → List (List ℕ) → Bool → List (List ℕ)
  | [], groups, _ => groups
  | ax :: rest, groups, F0 =>
    if F0 && F (ax.getLastD 0) then
      collapseLoop F rest ((ax.getLastD 0 :: groups.headD []) :: groups.tail)
        (F (ax.getLastD 0))
    else
      collapseLoop F rest (ax :: groups) (F (ax.getLastD 0))

/-- Embeds lines 140-150: start from the last group and fold the earlier
groups in reverse order. -/
def collapse_fourier (F : ℕ → Bool) (axes : List (List ℕ)) :
    List (List ℕ) :=
  match axes.getLast? with
  | none => axes
  | some glast =>
      collapseLoop F axes.dropLast.reverse [glast] (F (glast.getLastD 0))

/-- The number of Transfers of a pipeline with these groups: one between
each consecutive pair of groups (`len(self.transfer) = len(self.axes) - 1`
by construction, lines 165-171). -/
def numTransfers (groups : List (List ℕ)) : ℕ := groups.length - 1

/-- Content semantics of the forward pipeline (equally of the
scalar-product pipeline, which substitutes the quadrature-weighted leaf
operator at each stage but shares the Transfers): groups are applied from
the last to the first, a Transfer preserves global index correspondence
(spec sections 2-3), and a multi-axis stage is the composition of the
external 1D operators along its axes — the per-axis transform contract of
spec section 6. -/
def forwardSem {α : Type} (op : ℕ → α → α) (groups : List (List ℕ))
    (x : α) : α :=
  groups.foldr (fun g acc => g.foldr (fun a y => op a y) acc) x

/-- Content semantics of the backward pipeline: the mirror image, applying
groups first to last with each group's backward operator. -/
def backwardSem {α : Type} (op : ℕ → α → α) (groups : List (List ℕ))
    (x : α) : α :=
  groups.foldl (fun acc g => g.foldl (fun y a => op a y) acc) x

theorem collapseLoop_flatten (F : ℕ → Bool) :
    ∀ (rev : List (List ℕ)) (groups : List (List ℕ)) (F0 : Bool),
      (∀ g ∈ rev, g.length = 1) → groups ≠ [] →
      (collapseLoop F rev groups F0).flatten =
        rev.reverse.flatten ++ groups.flatten := by
  intro rev
  induction rev with
  | nil =>
    intro groups F0 _ _
    simp [collapseLoop]
  | cons ax rest ih =>
    intro groups F0 hlen hne
    obtain ⟨a, ha⟩ : ∃ a, ax = [a] := by
      have h1 := hlen ax (by simp)
      cases ax with
      | nil => simp at h1
      | cons x xs =>
        cases xs with
        | nil => exact ⟨x, rfl⟩
        | cons y ys => simp at h1
    subst ha
    obtain ⟨h, t, hgt⟩ : ∃ h t, groups = h :: t := by
      cases groups with
      | nil => exact absurd rfl hne
      | cons h t => exact ⟨h, t, rfl⟩
    subst hgt
    have hrest : ∀ g ∈ rest, g.length = 1 := fun g hg => hlen g (by simp [hg])
    simp only [collapseLoop]
    by_cases hF : (F0 && F ([a].getLastD 0)) = true
    · rw [if_pos hF]
      simp only [List.headD_cons, List.tail_cons]
      rw [ih ((([a].getLastD 0) :: h) :: t) (F ([a].getLastD 0)) hrest (by simp)]
      simp [List.getLastD]
    · rw [if_neg hF]
      rw [ih ([a] :: h :: t) (F ([a].getLastD 0)) hrest (by simp)]
      simp

theorem collapseLoop_length (F : ℕ → Bool) :
    ∀ (rev : List (List ℕ)) (groups : List (List ℕ)) (F0 : Bool),
      groups ≠ [] →
      (collapseLoop F rev groups F0).length ≤ rev.length + groups.length := by
  intro rev
  induction rev with
  | nil =>
    intro groups F0 _
    simp [collapseLoop]
  | cons ax rest ih =>
    intro groups F0 hne
    obtain ⟨h, t, hgt⟩ : ∃ h t, groups = h :: t := by
      cases groups with
      | nil => exact absurd rfl hne
      | cons h t => exact ⟨h, t, rfl⟩
    subst hgt
    simp only [collapseLoop]
    by_cases hF : (F0 && F (ax.getLastD 0)) = true
    · rw [if_pos hF]
      simp only [List.headD_cons, List.tail_cons]
      have := ih (((ax.getLastD 0) :: h) :: t) (F (ax.getLastD 0)) (by simp)
      simp only [List.length_cons] at this ⊢
      omega
    · rw [if_neg hF]
      have := ih (ax :: h :: t) (F (ax.getLastD 0)) (by simp)
      simp only [List.length_cons] at this ⊢
      omega

theorem collapse_fourier_flatten (F : ℕ → Bool) (axes : List (List ℕ))
    (h1 : axes ≠ []) (h2 : ∀ g ∈ axes, g.length = 1) :
    (collapse_fourier F axes).flatten = axes.flatten := by
  cases hx : axes.getLast? with
  | none =>
    rw [List.getLast?_eq_none_iff] at hx
    exact absurd hx h1
  | some glast =>
    have hg : glast = axes.getLast h1 := by
      rw [List.getLast?_eq_getLast axes h1] at hx
      exact (Option.some.injEq _ _ ▸ hx).symm
    simp only [collapse_fourier, hx]
    rw [collapseLoop_flatten F axes.dropLast.reverse [glast] _
          (fun g hgm => h2 g ((List.dropLast_sublist axes).subset (List.mem_reverse.mp hgm)))
          (by simp)]
    rw [List.reverse_reverse]
    have hax : axes.dropLast ++ [glast] = axes := by
      rw [hg]
      exact List.dropLast_append_getLast h1
    calc axes.dropLast.flatten ++ [glast].flatten
        = (axes.dropLast ++ [glast]).flatten := by rw [List.flatten_append]
      _ = axes.flatten := by rw [hax]

theorem collapse_fourier_length (F : ℕ → Bool) (axes : List (List ℕ)) :
    (collapse_fourier F axes).length ≤ axes.length := by
  cases hx : axes.getLast? with
  | none => simp [collapse_fourier, hx]
  | some glast =>
    have hne : axes ≠ [] := by
      intro h
      rw [h] at hx
      simp at hx
    simp only [collapse_fourier, hx]
    have := collapseLoop_length F axes.dropLast.reverse [glast]
      (F (glast.getLastD 0)) (by simp)
    simp only [List.length_reverse, List.length_dropLast, List.length_cons,
      List.length_nil] at this
    have hpos : 0 < axes.length := List.length_pos.mpr hne
    omega

theorem forwardSem_flatten {α : Type} (op : ℕ → α → α) :
    ∀ (groups : List (List ℕ)) (x : α),
      forwardSem op groups x = groups.flatten.foldr (fun a y => op a y) x := by
  intro groups
  induction groups with
  | nil => intro x; rfl
  | cons g gs ih =>
    intro x
    show g.foldr (fun a y => op a y) (forwardSem op gs x) =
      ((g :: gs).flatten).foldr (fun a y => op a y) x
    rw [ih x, show (g :: gs).flatten = g ++ gs.flatten from rfl,
        List.foldr_append]

theorem backwardSem_flatten {α : Type} (op : ℕ → α → α) :
    ∀ (groups : List (List ℕ)) (x : α),
      backwardSem op groups x = groups.flatten.foldl (fun y a => op a y) x := by
  intro groups
  induction groups with
  | nil => intro x; rfl
  | cons g gs ih =>
    intro x
    show backwardSem op gs (g.foldl (fun y a => op a y) x) =
      ((g :: gs).flatten).foldl (fun y a => op a y) x
    rw [ih, show (g :: gs).flatten = g ++ gs.flatten from rfl,
        List.foldl_append]

/-- C9: collapsing consecutive single-axis groups (the configuration the
source's collapse loop is written for) preserves the flattened axis order,
and therefore the forward, backward and scalar-product pipeline semantics
are unchanged for arbitrary per-axis operators; the number of Transfers
(one per adjacent group pair) can only decrease. -/
theorem c9_collapse_equiv {α : Type} (F : ℕ → Bool) (axes : List (List ℕ))
    (fop bop sop : ℕ → α → α) (x : α)
    (h1 : axes ≠ []) (h2 : ∀ g ∈ axes, g.length = 1) :
    (collapse_fourier F axes).flatten = axes.flatten
    ∧ numTransfers (collapse_fourier F axes) ≤ numTransfers axes
    ∧ forwardSem fop (collapse_fourier F axes) x = forwardSem fop axes x
    ∧ backwardSem bop (collapse_fourier F axes) x = backwardSem bop axes x
    ∧ forwardSem sop (collapse_fourier F axes) x = forwardSem sop axes x := by
  have hfl := collapse_fourier_flatten F axes h1 h2
  refine ⟨hfl, ?_, ?_, ?_, ?_⟩
  · have := collapse_fourier_length F axes
    unfold numTransfers
    omega
  · rw [forwardSem_flatten, forwardSem_flatten, hfl]
  · rw [backwardSem_flatten, backwardSem_flatten, hfl]
  · rw [forwardSem_flatten, forwardSem_flatten, hfl]

/-- Witness for C9: three single-axis fourier groups on a slab-free grid
(extent 1 along every axis), all collapsible, with concrete rational
stage operators. -/
theorem c9_collapse_equiv_witness :
    (collapse_fourier
        (collapse_pred [.fourierC2C, .fourierC2C, .fourierR2C] [1, 1, 1])
        [[0], [1], [2]]).flatten = [[0], [1], [2]].flatten
    ∧ numTransfers (collapse_fourier
        (collapse_pred [.fourierC2C, .fourierC2C, .fourierR2C] [1, 1, 1])
        [[0], [1], [2]]) ≤ numTransfers [[0], [1], [2]]
    ∧ forwardSem (fun i q => q + (i : ℚ))
        (collapse_fourier
          (collapse_pred [.fourierC2C, .fourierC2C, .fourierR2C] [1, 1, 1])
          [[0], [1], [2]]) (5 : ℚ) =
        forwardSem (fun i q => q + (i : ℚ)) [[0], [1], [2]] (5 : ℚ)
    ∧ backwardSem (fun i q => q - (i : ℚ))
        (collapse_fourier
          (collapse_pred [.fourierC2C, .fourierC2C, .fourierR2C] [1, 1, 1])
          [[0], [1], [2]]) (5 : ℚ) =
        backwardSem (fun i q => q - (i : ℚ)) [[0], [1], [2]] (5 : ℚ)
    ∧ forwardSem (fun i q => q * ((i : ℚ) + 1))
        (collapse_fourier
          (collapse_pred [.fourierC2C, .fourierC2C, .fourierR2C] [1, 1, 1])
          [[0], [1], [2]]) (5 : ℚ) =
        forwardSem (fun i q => q * ((i : ℚ) + 1)) [[0], [1], [2]] (5 : ℚ) :=
  c9_collapse_equiv
    (collapse_pred [.fourierC2C, .fourierC2C, .fourierR2C] [1, 1, 1])
    [[0], [1], [2]] (fun i q => q + (i : ℚ)) (fun i q => q - (i : ℚ))
    (fun i q => q * ((i : ℚ) + 1)) (5 : ℚ) (by decide) (by decide)

/-! ## Claim C10: point-evaluation strategy fallback -/

/-- Embeds `TensorProductSpace.get_nonperiodic_axes` (lines 693-699): the
axes whose basis is not of the fourier family. -/
def TensorProductSpace.get_nonperiodic_axes (T : TensorProductSpace) :
    List ℕ :=
  (T.bases.enum.filter (fun p => !isFourier p.2.family)).map (fun p => p.1)

/-- The three point-evaluation strategies of `TensorProductSpace.eval`. -/
inductive EvalImpl
  | lmCython
  | fastCython
  | python
deriving DecidableEq, Repr

/-- Embeds the dispatch of `TensorProductSpace.eval` (lines 334-362): with
more than one non-periodic axis the method is silently reset to 2, then
method 0 dispatches to `_eval_lm_cython`, method 1 to `_eval_cython` and
anything else to `_eval_python`. -/
def TensorProductSpace.eval_impl (T : TensorProductSpace) (method : ℕ) :
    EvalImpl :=
  let m := if 1 < T.get_nonperiodic_axes.length then 2 else method
  if m = 0 then .lmCython else if m = 1 then .fastCython else .python

/-- C10: requesting the low-memory cython strategy (0) or the fast cython
strategy (1) on a space with more than one non-Fourier axis silently runs
the python strategy instead. -/
theorem c10_eval_fallback (T : TensorProductSpace) (method : ℕ)
    (_hm : method = 0 ∨ method = 1)
    (hax : 1 < T.get_nonperiodic_axes.length) :
    T.eval_impl method = .python := by
  simp [TensorProductSpace.eval_impl, hax]

/-- A concrete 3-D space with two non-Fourier axes. -/
def spaceC10 : TensorProductSpace :=
  ⟨[⟨8, 8, 6, .cheb⟩, ⟨8, 8, 6, .legendre⟩, ⟨8, 5, 8, .fourierR2C⟩]⟩

/-- Witness for C10 at `spaceC10` with requested method 0. -/
theorem c10_eval_fallback_witness : spaceC10.eval_impl 0 = .python :=
  c10_eval_fallback spaceC10 0 (Or.inl rfl) (by decide)

end Shenfun
